import Mathlib

set_option maxRecDepth 4000

/-
Verification of the bubble chart repository: a shallow embedding of the
CSV parser (GoogleSheetsReader.parseCSV), of the hierarchy builder
(BubbleChart.setData) and of the zoom focus state machine inside
BubbleChart.render, together with theorems settling the stated
behavioural claims about them.
-/

/- ### Character and string helpers -/

/-- Model of the JavaScript String.trim operation on a character list:
whitespace is removed from both ends. -/
def trimChars (cs : List Char) : List Char :=
  ((cs.dropWhile Char.isWhitespace).reverse.dropWhile Char.isWhitespace).reverse

/-- String level wrapper of trimChars, modelling value.trim() in the source. -/
def jsTrim (s : String) : String := String.mk (trimChars s.toList)

/-- Model of the JavaScript csvText.split with the newline character:
every newline separates two pieces, and the empty text yields one empty
piece, exactly as String.prototype.split does. -/
def splitOnNl : List Char → List (List Char)
  | [] => [[]]
  | c :: rest =>
    if c = '\n' then [] :: splitOnNl rest
    else
      match splitOnNl rest with
      | [] => [[c]]
      | l :: ls => (c :: l) :: ls

/- ### CSV parser (GoogleSheetsReader.parseCSV) -/

/-- Character scan of one CSV line, following the loop of parseCSV: the
arguments are the remaining characters, the inQuotes flag, the current
field buffer and the fields already pushed. A quote inside quoted mode
that is immediately followed by another quote emits one literal quote
and consumes both characters; otherwise a quote toggles quoted mode; a
comma outside quotes ends the field (trimmed); every other character,
including a comma inside quotes, is appended to the buffer. At the end
of the line the final field is pushed trimmed, whatever the flag. -/
def parseLineAux : List Char → Bool → List Char → List (List Char) → List (List Char)
  | [], _, cur, row => row ++ [trimChars cur]
  | '"' :: '"' :: rest, true, cur, row => parseLineAux rest true (cur ++ ['"']) row
  | '"' :: rest, true, cur, row => parseLineAux rest false cur row
  | '"' :: rest, false, cur, row => parseLineAux rest true cur row
  | ',' :: rest, false, cur, row => parseLineAux rest false [] (row ++ [trimChars cur])
  | c :: rest, inQ, cur, row => parseLineAux rest inQ (cur ++ [c]) row

/-- Fields of one parsed line, as strings. -/
def parseLine (line : List Char) : List String :=
  (parseLineAux line false [] []).map String.mk

/-- The row filter of parseCSV: row.some with cell not equal to the
empty string. -/
def keepRow (row : List String) : Bool := row.any (fun cell => cell != "")

/-- Handling of one line inside the loop of parseCSV: a line that trims
to nothing is skipped, otherwise the parsed row is appended when some
field of it is non empty. -/
def csvStep (rows : List (List String)) (line : List Char) : List (List String) :=
  if trimChars line = [] then rows
  else if keepRow (parseLine line) then rows ++ [parseLine line] else rows

/-- The parseCSV method of GoogleSheetsReader: split on newlines, then
fold every line through csvStep. -/
def parseCSV (text : String) : List (List String) :=
  (splitOnNl text.toList).foldl csvStep []

/- ### Hierarchy builder (BubbleChart.setData) -/

/-- One input record as destructured by setData; a key that is absent
from the underlying object is none (JavaScript undefined). -/
structure Record where
  module : Option String
  application : Option String
  team : Option String
deriving DecidableEq

/-- Hierarchy node: a name together with an optional children array.
none as children models the absence of the children key, which is what
distinguishes a leaf from an internal node downstream. The name is an
Option String because setData copies possibly undefined field values
into it unguarded. -/
inductive HNode : Type where
  | mk : Option String → Option (List HNode) → HNode

/-- Name of a hierarchy node. -/
def HNode.name : HNode → Option String
  | HNode.mk n _ => n

/-- Children of a hierarchy node (none when the children key is absent). -/
def HNode.children : HNode → Option (List HNode)
  | HNode.mk _ c => c

/-- Rendering of a possibly undefined string inside a template literal:
JavaScript prints undefined as the text undefined. -/
def jsStr : Option String → String
  | some s => s
  | none => "undefined"

/-- Per team accumulator of setData: the name stored at creation, the
application map (insertion ordered, keyed by application name, holding
the children pushed so far) and the standalone module leaves. -/
structure TeamData where
  name : Option String
  applications : List (String × List HNode)
  modules : List HNode

/-- Models the set then get then mutate pattern used on a JavaScript
Map: insertion order is preserved, an absent key is appended at the end
with its fresh value before the mutation is applied. -/
def jsMapUpsert {k v : Type} [DecidableEq k] (m : List (k × v)) (key : k) (fresh : v)
    (f : v → v) : List (k × v) :=
  match m with
  | [] => [(key, f fresh)]
  | (k0, v0) :: rest =>
    if k0 = key then (k0, f v0) :: rest else (k0, v0) :: jsMapUpsert rest key fresh f

/-- A leaf pushed by setData: an object with only a name key. -/
def moduleLeaf (m : Option String) : HNode := HNode.mk m none

/-- The body of the forEach over the input records in setData, applied
to the team entry of the record: the application branch is taken when
application is truthy and trims to a non empty string (the module is
then pushed under that application key); otherwise the module is pushed
as a standalone leaf. -/
def applyToTeam (r : Record) (td : TeamData) : TeamData :=
  match r.application with
  | some app =>
    if app ≠ "" ∧ jsTrim app ≠ "" then
      { td with applications :=
          jsMapUpsert td.applications app [] (fun ch => ch ++ [moduleLeaf r.module]) }
    else
      { td with modules := td.modules ++ [moduleLeaf r.module] }
  | none => { td with modules := td.modules ++ [moduleLeaf r.module] }

/-- One iteration of the forEach over the input records in setData:
fetch or create the team entry, then mutate it with the record. -/
def applyRecord (tm : List (Option String × TeamData)) (r : Record) :
    List (Option String × TeamData) :=
  jsMapUpsert tm r.team ⟨r.team, [], []⟩ (applyToTeam r)

/-- The final node built for one team: the application nodes in
insertion order followed by the standalone module leaves. -/
def teamNode (td : TeamData) : HNode :=
  HNode.mk td.name
    (some (td.applications.map (fun p => HNode.mk (some p.1) (some p.2)) ++ td.modules))

/-- The teams array of setData, in first seen team order. -/
def buildTeams (rs : List Record) : List HNode :=
  (rs.foldl applyRecord []).map (fun p => teamNode p.2)

/-- The final assignment of setData. More than one team gives the
synthetic FOLIO root holding all team nodes; otherwise the code reads
teams[0].children[0] without any guard, so an index past the end of an
array (a TypeError at run time, from an undefined dereference) is
modelled as none. -/
def setData (rs : List Record) : Option HNode :=
  let teams := buildTeams rs
  if 1 < teams.length then
    some (HNode.mk (some "FOLIO") (some teams))
  else
    match teams.head? with
    | none => none
    | some t =>
      match t.children with
      | none => none
      | some tch =>
        match tch.head? with
        | none => none
        | some c => some (HNode.mk (some (jsStr t.name ++ " - " ++ jsStr c.name)) c.children)

/- ### Zoom focus state machine (BubbleChart.render) -/

/-- One packed node as consumed by the renderer: center, radius, and
whether d.children is non null (internal node). Geometry is rational. -/
structure PNode where
  x : ℚ
  y : ℚ
  r : ℚ
  internal : Bool
deriving DecidableEq

/-- Placeholder node used by the total indexing helper. -/
def defaultPNode : PNode := ⟨0, 0, 0, false⟩

/-- Node of a chart by index; index 0 is the packed root, the remaining
indices are the other descendants (the ones that receive a circle). -/
def nodeAt (ns : List PNode) (i : Nat) : PNode := ns.getD i defaultPNode

/-- The viewport targeted when zooming to a node: [x, y, r * 2]. -/
def targetView (ns : List PNode) (i : Nat) : ℚ × ℚ × ℚ :=
  ((nodeAt ns i).x, (nodeAt ns i).y, (nodeAt ns i).r * 2)

/-- State of the controller: focused node index, current viewport after
all transitions have completed, and the number of zoom transitions
started so far. -/
structure FocusState where
  focus : Nat
  view : ℚ × ℚ × ℚ
  transitions : Nat

/-- Initial state: focus is the root and zoomTo was applied directly to
the root viewport (no transition started). -/
def initState (ns : List PNode) : FocusState := ⟨0, targetView ns 0, 0⟩

/-- An activation event: a pointer click on the circle of node i, or a
click on an empty area of the canvas. -/
inductive Ev : Type where
  | circle : Nat → Ev
  | background : Ev
deriving DecidableEq

/-- Processing of one event, with every started transition run to
completion. A circle click first runs the circle handler: when the
clicked node differs from the focus it zooms to it and stops
propagation; when it equals the focus the guard skips the zoom but does
not stop propagation, so the click reaches the svg handler, which zooms
to the root. A background click reaches only the svg handler, which
zooms to the root unconditionally. Each zoom sets the focus, starts a
transition and, once complete, leaves the viewport at the target. -/
def zoomStep (ns : List PNode) (s : FocusState) : Ev → FocusState
  | Ev.circle i =>
    if s.focus = i then ⟨0, targetView ns 0, s.transitions + 1⟩
    else ⟨i, targetView ns i, s.transitions + 1⟩
  | Ev.background => ⟨0, targetView ns 0, s.transitions + 1⟩

/-- State after a finite sequence of activation events. -/
def runEvents (ns : List PNode) (evs : List Ev) : FocusState :=
  evs.foldl (zoomStep ns) (initState ns)

/-- Which events the render surface can actually emit: circles exist
only for descendants other than the root, and leaf circles carry
pointer-events none, so only internal nodes can be clicked; background
clicks are always possible. -/
def emittable (ns : List PNode) : Ev → Bool
  | Ev.circle i => (i != 0) && (decide (i < ns.length)) && (nodeAt ns i).internal
  | Ev.background => true

/-- The zoom scale of zoomTo: k = width / v[2]. -/
def scaleK (w : ℚ) (v : ℚ × ℚ × ℚ) : ℚ := w / v.2.2

/-- Screen position assigned by zoomTo to a node under viewport v. -/
def screenPos (w : ℚ) (v : ℚ × ℚ × ℚ) (n : PNode) : ℚ × ℚ :=
  ((n.x - v.1) * scaleK w v, (n.y - v.2.1) * scaleK w v)

/-- Screen radius assigned by zoomTo to a node under viewport v. -/
def screenR (w : ℚ) (v : ℚ × ℚ × ℚ) (n : PNode) : ℚ := n.r * scaleK w v

/-- Example chart with a packed root at the origin and one internal
child node, used by concrete witnesses. -/
def chartTwo : List PNode := [⟨0, 0, 10, true⟩, ⟨3, 4, 2, true⟩]

/- ### Spec modelled CSV serializer (for the round trip property) -/

/-- Modelled from the spec: standard quoting quotes a field when it
contains a comma or a quote. -/
def needsQuote (cs : List Char) : Bool := cs.any (fun c => c = ',' || c = '"')

/-- Modelled from the spec: embedded quotes are doubled. -/
def escapeQuotes : List Char → List Char
  | [] => []
  | c :: rest => if c = '"' then '"' :: '"' :: escapeQuotes rest else c :: escapeQuotes rest

/-- Modelled from the spec: a serialized field, quoted when needed. -/
def serializeFieldChars (cs : List Char) : List Char :=
  if needsQuote cs then '"' :: (escapeQuotes cs ++ ['"']) else cs

/-- Modelled from the spec: fields joined with commas. -/
def serializeRowChars : List (List Char) → List Char
  | [] => []
  | [f] => serializeFieldChars f
  | f :: fs => serializeFieldChars f ++ ',' :: serializeRowChars fs

/-- Modelled from the spec: rows joined with newlines. -/
def serializeTableChars : List (List (List Char)) → List Char
  | [] => []
  | [r] => serializeRowChars r
  | r :: rs => serializeRowChars r ++ '\n' :: serializeTableChars rs

/-- Modelled from the spec: serialization of a table of string fields
with standard quoting. -/
def serializeTable (t : List (List String)) : String :=
  String.mk (serializeTableChars (t.map (fun row => row.map String.toList)))

/- ### Spec description of the grouping (for the refinement comparison) -/

/-- First seen deduplication: keeps the first occurrence of every
element, in order of first appearance. -/
def firstSeen {α : Type} [DecidableEq α] (l : List α) : List α :=
  l.foldl (fun acc a => if a ∈ acc then acc else acc ++ [a]) []

/-- Written from the spec wording: a record has a usable application
when the value is present, truthy and does not trim to nothing. -/
def specAppNonBlank : Option String → Bool
  | some s => decide (s ≠ "") && decide (jsTrim s ≠ "")
  | none => false

/-- The application key of a record (defined for non blank records). -/
def specAppKey (r : Record) : String := r.application.getD ""

/-- Written from the spec wording: the records of one team, in input
order. -/
def specTeamRecords (rs : List Record) (t : Option String) : List Record :=
  rs.filter (fun r => decide (r.team = t))

/-- Written from the spec wording: the application names occurring in a
record list with a non blank application, in first seen order. -/
def specNonBlankApps (recs : List Record) : List String :=
  firstSeen ((recs.filter (fun r => specAppNonBlank r.application)).map specAppKey)

/-- Written from the spec wording: the module leaves of one application
group, in record order. -/
def specAppChildren (recs : List Record) (a : String) : List HNode :=
  (recs.filter (fun r => decide (r.application = some a))).map
    (fun r => moduleLeaf r.module)

/-- Written from the spec wording: the application groups of a record
list, in first seen application order. -/
def specAppsOf (recs : List Record) : List (String × List HNode) :=
  (specNonBlankApps recs).map (fun a => (a, specAppChildren recs a))

/-- Written from the spec wording: the standalone module leaves of a
record list (blank application), in record order. -/
def specModulesOf (recs : List Record) : List HNode :=
  (recs.filter (fun r => !specAppNonBlank r.application)).map
    (fun r => moduleLeaf r.module)

/-- Written from the spec wording: the team accumulator a team should
end up with, computed by gathering rather than by folding. -/
def specTeamData (rs : List Record) (t : Option String) : TeamData :=
  ⟨t, specAppsOf (specTeamRecords rs t), specModulesOf (specTeamRecords rs t)⟩

/-- Written from the spec wording: one node per team in first seen team
order, each holding its application groups (first seen order, module
leaves in record order) followed by its standalone module leaves in
record order. -/
def specTeams (rs : List Record) : List HNode :=
  (firstSeen (rs.map Record.team)).map (fun t => teamNode (specTeamData rs t))

/- ### Helper lemmas -/

theorem dropWhile_eq_nil_iff_all {p : Char → Bool} {l : List Char} :
    l.dropWhile p = [] ↔ ∀ a ∈ l, p a = true := by
  induction l with
  | nil => simp
  | cons c cs ih =>
    by_cases h : p c = true
    · simp [List.dropWhile_cons, h, ih]
    · simp only [List.dropWhile_cons, if_neg h]
      simp only [List.mem_cons]
      constructor
      · intro hfalse; exact absurd hfalse (List.cons_ne_nil c cs)
      · intro hall; exact absurd (hall c (Or.inl rfl)) h

theorem forall_mem_dropWhile_iff {p : Char → Bool} {l : List Char} :
    (∀ a ∈ l.dropWhile p, p a = true) ↔ ∀ a ∈ l, p a = true := by
  constructor
  · intro h a ha
    have hsplit : l.takeWhile p ++ l.dropWhile p = l :=
      List.takeWhile_append_dropWhile (p := p) (l := l)
    rw [← hsplit] at ha
    rcases List.mem_append.mp ha with h1 | h2
    · exact List.mem_takeWhile_imp h1
    · exact h a h2
  · intro h a ha
    exact h a ((List.dropWhile_sublist p).subset ha)

/-- Characterization of blank character lists: the trim is empty
exactly when every character is whitespace. -/
theorem trimChars_eq_nil_iff {cs : List Char} :
    trimChars cs = [] ↔ ∀ c ∈ cs, c.isWhitespace = true := by
  unfold trimChars
  rw [List.reverse_eq_nil_iff, dropWhile_eq_nil_iff_all]
  constructor
  · intro h
    rw [← forall_mem_dropWhile_iff (p := Char.isWhitespace)]
    intro a ha
    exact h a (List.mem_reverse.mpr ha)
  · intro h a ha
    exact h a ((List.dropWhile_sublist Char.isWhitespace).subset (List.mem_reverse.mp ha))

/- ### Claim theorems on the parser and the builder -/

/-- Claim C1: on an empty input table the hierarchy construction of
setData does not report a typed EmptyDataset failure: the collapsing
branch dereferences teams[0] unguarded and faults (modelled as none).
This theorem evaluates the code at the failing input. -/
theorem setData_empty_input_faults : setData ([] : List Record) = none := rfl

/-- Claim C2 counterexample: a single team dataset with two top level
children (two standalone modules) still collapses, although the claim
says that with more than one child no collapse occurs: the resulting
root is named T - m1, not the team name T, and the second module is
dropped entirely. -/
theorem setData_collapses_with_two_children :
    setData
      [⟨some "m1", some "", some "T"⟩, ⟨some "m2", some "", some "T"⟩] =
      some (HNode.mk (some "T - m1") none) ∧
    (setData
      [⟨some "m1", some "", some "T"⟩, ⟨some "m2", some "", some "T"⟩]).map HNode.name ≠
      some (some "T") := by
  exact ⟨rfl, by decide⟩

/-- Claim C2 amended: more than one team gives the synthetic FOLIO root
with all team nodes as children; with exactly one team the collapse
applies regardless of how many children the team has, renaming the root
to team - children[0].name and promoting the children of children[0]
(all remaining children of the team are dropped). -/
theorem setData_collapse_rule (rs : List Record) :
    (1 < (buildTeams rs).length →
      setData rs = some (HNode.mk (some "FOLIO") (some (buildTeams rs)))) ∧
    (∀ (tn : Option String) (c : HNode) (cs : List HNode),
      buildTeams rs = [HNode.mk tn (some (c :: cs))] →
      setData rs = some (HNode.mk (some (jsStr tn ++ " - " ++ jsStr c.name)) c.children)) := by
  constructor
  · intro h
    simp [setData, h]
  · intro tn c cs h
    simp [setData, h, HNode.children, HNode.name]

/-- Claim C2 amended, witness: with one team holding two children the
collapse still fires, producing the root T - m1. -/
theorem setData_collapse_rule_witness :
    setData
      [⟨some "m1", some "", some "T"⟩, ⟨some "m2", some "", some "T"⟩] =
      some (HNode.mk (some "T - m1") none) := by
  have h :=
    (setData_collapse_rule
      [⟨some "m1", some "", some "T"⟩, ⟨some "m2", some "", some "T"⟩]).2
      (some "T") (moduleLeaf (some "m1")) [moduleLeaf (some "m2")] rfl
  exact h

/-- Claim C3: a record lacking the team value is not excluded from
hierarchy construction: the code groups it under the undefined team and
builds a root literally named undefined - m, while removing the record
(leaving an empty table) makes the builder fault instead; the two
results differ, so the built tree is not the tree of the filtered
table. -/
theorem setData_missing_team_not_skipped :
    setData [⟨some "m", none, none⟩] = some (HNode.mk (some "undefined - m") none) ∧
    setData ([⟨some "m", none, none⟩].filter
      (fun r => r.team.isSome && r.module.isSome)) = none := by
  exact ⟨rfl, rfl⟩

/-- Claim C5 counterexample: for the records mod-a (no application),
mod-b and mod-c (application App1), all in team T1, the claim says the
built tree is rooted at T1; but since exactly one team exists, setData
collapses through children[0] and the stored tree is rooted at
T1 - App1 with only the two App1 modules as children, mod-a being
dropped from the final tree. -/
theorem setData_grouping_example_collapses :
    (setData
      [⟨some "mod-a", some "", some "T1"⟩,
       ⟨some "mod-b", some "App1", some "T1"⟩,
       ⟨some "mod-c", some "App1", some "T1"⟩]).map HNode.name ≠
      some (some "T1") := by
  decide

/-- Claim C6: the escaped quote rule of parseCSV. Inside quoted mode a
quote immediately followed by another quote emits one literal quote and
consumes both characters; a comma inside quotes is literal content; a
quote followed by any other character (or by nothing) toggles quoted
mode off; and the sample line parses to the single expected row. -/
theorem parseCSV_escaped_quotes :
    (∀ (rest cur : List Char) (row : List (List Char)),
      parseLineAux ('"' :: '"' :: rest) true cur row =
        parseLineAux rest true (cur ++ ['"']) row) ∧
    (∀ (rest cur : List Char) (row : List (List Char)),
      parseLineAux (',' :: rest) true cur row =
        parseLineAux rest true (cur ++ [',']) row) ∧
    (∀ (c : Char) (rest cur : List Char) (row : List (List Char)),
      parseLineAux ('"' :: c :: rest) true cur row =
        if c = '"' then parseLineAux rest true (cur ++ ['"']) row
        else parseLineAux (c :: rest) false cur row) ∧
    (∀ (cur : List Char) (row : List (List Char)),
      parseLineAux ['"'] true cur row = parseLineAux [] false cur row) ∧
    parseCSV "a,\"He said \"\"hi\"\"\",c" = [["a", "He said \"hi\"", "c"]] := by
  refine ⟨fun rest cur row => rfl, fun rest cur row => rfl, ?_, fun cur row => rfl, by decide⟩
  intro c rest cur row
  by_cases h : c = '"'
  · subst h
    rw [if_pos rfl]
    exact rfl
  · rw [if_neg h]; simp [parseLineAux, h]

/-- Claim C7: the parser is total and permissive. At the end of a line
the final field is pushed trimmed whatever the inQuotes flag is, so an
unterminated quote behaves as if quoted mode silently closed; a line
that trims to nothing contributes no row at all; any other line
contributes its parsed row exactly when some field of it is non empty
after trimming. The parser is a total function, so no input makes it
fail. -/
theorem parseCSV_total_permissive :
    (∀ (inQ : Bool) (cur : List Char) (row : List (List Char)),
      parseLineAux [] inQ cur row = row ++ [trimChars cur]) ∧
    (∀ (rows : List (List String)) (line : List Char),
      trimChars line = [] → csvStep rows line = rows) ∧
    (∀ (rows : List (List String)) (line : List Char),
      trimChars line ≠ [] →
      csvStep rows line =
        if keepRow (parseLine line) then rows ++ [parseLine line] else rows) := by
  refine ⟨fun inQ cur row => rfl, ?_, ?_⟩
  · intro rows line h
    simp [csvStep, h]
  · intro rows line h
    simp [csvStep, h]

/-- Claim C7 witness: a whitespace only line is skipped, and the
unterminated quoted line with the letter a is parsed and kept. -/
theorem parseCSV_total_permissive_witness :
    csvStep [] [' ', '\t'] = [] ∧
    csvStep [] ['"', 'a'] = [["a"]] := by
  constructor
  · exact parseCSV_total_permissive.2.1 [] [' ', '\t'] (by decide)
  · rw [parseCSV_total_permissive.2.2 [] ['"', 'a'] (by decide)]
    decide

/- ### Claim theorems on the zoom focus state machine -/

/-- Claim C4 counterexample: from the initial state, clicking the
circle of internal node 1 focuses it; clicking the same circle again
(an activation event naming the focused node) is not a no-op: the focus
moves back to the root and a second transition starts, because the
guard skips the zoom without stopping propagation and the svg handler
zooms to the root. A background click while the root is focused also
starts a fresh transition to the root. -/
theorem zoom_refocus_not_noop :
    runEvents chartTwo [Ev.circle 1] = ⟨1, targetView chartTwo 1, 1⟩ ∧
    runEvents chartTwo [Ev.circle 1, Ev.circle 1] = ⟨0, targetView chartTwo 0, 2⟩ ∧
    runEvents chartTwo [Ev.background] = ⟨0, targetView chartTwo 0, 1⟩ := by
  exact ⟨rfl, rfl, rfl⟩

/-- Claim C4 amended: activating a node different from the focused one
zooms to it (one new transition). Activating the focused node through
its circle is not a no-op: the circle handler skips the zoom but does
not stop propagation, so the svg handler activates the root, moving the
focus to the root and starting a transition. A background click always
zooms to the root, starting a new transition even when the root is
already focused (only the focused node is unchanged in that case). -/
theorem zoom_refocus_behavior (ns : List PNode) (s : FocusState) (i : Nat) :
    (s.focus = i →
      zoomStep ns s (Ev.circle i) = ⟨0, targetView ns 0, s.transitions + 1⟩) ∧
    (s.focus ≠ i →
      zoomStep ns s (Ev.circle i) = ⟨i, targetView ns i, s.transitions + 1⟩) ∧
    zoomStep ns s Ev.background = ⟨0, targetView ns 0, s.transitions + 1⟩ ∧
    (s.focus = 0 → (zoomStep ns s Ev.background).focus = s.focus) := by
  refine ⟨fun h => by simp [zoomStep, h], fun h => by simp [zoomStep, h], rfl,
    fun h => by simp [zoomStep, h]⟩

/-- Claim C4 amended, witness: after focusing node 1 of the example
chart, clicking its own circle moves the focus to the root with one
more transition, and a background click from the initial state keeps
the focus unchanged while starting a transition. -/
theorem zoom_refocus_behavior_witness :
    zoomStep chartTwo ⟨1, targetView chartTwo 1, 1⟩ (Ev.circle 1) =
      ⟨0, targetView chartTwo 0, 2⟩ ∧
    (zoomStep chartTwo (initState chartTwo) Ev.background).focus =
      (initState chartTwo).focus := by
  constructor
  · exact (zoom_refocus_behavior chartTwo ⟨1, targetView chartTwo 1, 1⟩ 1).1 rfl
  · exact (zoom_refocus_behavior chartTwo (initState chartTwo) 0).2.2.2 rfl

/-- After any event the viewport equals the target of the new focus. -/
theorem view_eq_target_foldl (ns : List PNode) (evs : List Ev) :
    ∀ s : FocusState, s.view = targetView ns s.focus →
      (evs.foldl (zoomStep ns) s).view = targetView ns (evs.foldl (zoomStep ns) s).focus := by
  induction evs with
  | nil => intro s h; exact h
  | cons e evs ih =>
    intro s h
    apply ih
    cases e with
    | circle i =>
      by_cases hf : s.focus = i
      · simp [zoomStep, hf]
      · simp [zoomStep, hf]
    | background => simp [zoomStep]

/-- Claim C8: after any finite sequence of activation events, with all
transitions completed, exactly one node is focused, the viewport equals
[focus.x, focus.y, focus.r * 2], and the zoomTo transform places the
center of the focused node at the origin of the render surface for
every render width. -/
theorem focus_invariant (ns : List PNode) (evs : List Ev) (w : ℚ) :
    (∃! i : Nat, (runEvents ns evs).focus = i) ∧
    (runEvents ns evs).view = targetView ns (runEvents ns evs).focus ∧
    screenPos w (runEvents ns evs).view (nodeAt ns (runEvents ns evs).focus) = (0, 0) := by
  have hv : (runEvents ns evs).view = targetView ns (runEvents ns evs).focus :=
    view_eq_target_foldl ns evs (initState ns) rfl
  refine ⟨⟨(runEvents ns evs).focus, rfl, fun y h => h.symm⟩, hv, ?_⟩
  rw [hv]
  simp [screenPos, targetView]

/-- Claim C10: provided every event is one the render surface can emit
(circles exist only for non root descendants and leaf circles have
pointer events disabled), every reachable state focuses the root or an
internal node. -/
theorem focus_internal_or_root (ns : List PNode) (evs : List Ev)
    (h : ∀ e ∈ evs, emittable ns e = true) :
    (runEvents ns evs).focus = 0 ∨ (nodeAt ns (runEvents ns evs).focus).internal = true := by
  have main : ∀ (l : List Ev) (s : FocusState),
      (∀ e ∈ l, emittable ns e = true) →
      (s.focus = 0 ∨ (nodeAt ns s.focus).internal = true) →
      ((l.foldl (zoomStep ns) s).focus = 0 ∨
        (nodeAt ns (l.foldl (zoomStep ns) s).focus).internal = true) := by
    intro l
    induction l with
    | nil => intro s _ hs; exact hs
    | cons e l ih =>
      intro s hl hs
      apply ih
      · intro e' he'; exact hl e' (List.mem_cons_of_mem e he')
      · have he : emittable ns e = true := hl e (List.mem_cons_self e l)
        cases e with
        | circle i =>
          by_cases hf : s.focus = i
          · left; simp [zoomStep, hf]
          · right
            simp only [zoomStep, if_neg hf]
            simp only [emittable, Bool.and_eq_true] at he
            exact he.2
        | background => left; simp [zoomStep]
  exact main evs (initState ns) h (Or.inl rfl)

/-- Claim C10 witness: in the example chart the single circle click on
internal node 1 is emittable and leads to a state whose focus is the
root or an internal node. -/
theorem focus_internal_or_root_witness :
    (runEvents chartTwo [Ev.circle 1]).focus = 0 ∨
      (nodeAt chartTwo (runEvents chartTwo [Ev.circle 1]).focus).internal = true := by
  exact focus_internal_or_root chartTwo [Ev.circle 1] (by decide)

/- ### Round trip lemmas -/

theorem plx_nil (inQ : Bool) (cur : List Char) (row : List (List Char)) :
    parseLineAux [] inQ cur row = row ++ [trimChars cur] := rfl

theorem plx_esc (rest cur : List Char) (row : List (List Char)) :
    parseLineAux ('"' :: '"' :: rest) true cur row =
      parseLineAux rest true (cur ++ ['"']) row := rfl

theorem plx_comma (rest cur : List Char) (row : List (List Char)) :
    parseLineAux (',' :: rest) false cur row =
      parseLineAux rest false [] (row ++ [trimChars cur]) := rfl

theorem plx_comma_inq (rest cur : List Char) (row : List (List Char)) :
    parseLineAux (',' :: rest) true cur row =
      parseLineAux rest true (cur ++ [',']) row := rfl

theorem plx_open (rest cur : List Char) (row : List (List Char)) :
    parseLineAux ('"' :: rest) false cur row = parseLineAux rest true cur row := by
  cases rest with
  | nil => rfl
  | cons c2 tl =>
    by_cases h : c2 = '"'
    · subst h; rfl
    · simp [parseLineAux, h]

theorem plx_close {c : Char} (tl cur : List Char) (row : List (List Char)) (h : c ≠ '"') :
    parseLineAux ('"' :: c :: tl) true cur row = parseLineAux (c :: tl) false cur row := by
  simp [parseLineAux, h]

theorem plx_other {c : Char} (rest cur : List Char) (row : List (List Char)) (inQ : Bool)
    (hq : c ≠ '"') (hc : c ≠ ',') :
    parseLineAux (c :: rest) inQ cur row = parseLineAux rest inQ (cur ++ [c]) row := by
  simp [parseLineAux, hq, hc]

/-- Scanning the escaped body of a quoted field accumulates the
original content literally, and the closing quote leaves quoted mode,
as long as the character following the closing quote is not a quote. -/
theorem scan_escaped (f : List Char) :
    ∀ (rest cur : List Char) (row : List (List Char)), rest.head? ≠ some '"' →
      parseLineAux (escapeQuotes f ++ ('"' :: rest)) true cur row =
        parseLineAux rest false (cur ++ f) row := by
  induction f with
  | nil =>
    intro rest cur row h
    show parseLineAux ([] ++ ('"' :: rest)) true cur row = _
    rw [List.nil_append, List.append_nil]
    cases rest with
    | nil => rfl
    | cons c2 tl =>
      have hc2 : c2 ≠ '"' := by
        intro he; exact h (by simp [he])
      exact plx_close tl cur row hc2
  | cons c f ih =>
    intro rest cur row h
    by_cases hc : c = '"'
    · subst hc
      show parseLineAux (('"' :: '"' :: escapeQuotes f) ++ ('"' :: rest)) true cur row = _
      rw [List.cons_append, List.cons_append, plx_esc, ih rest (cur ++ ['"']) row h]
      simp
    · show parseLineAux ((if c = '"' then '"' :: '"' :: escapeQuotes f
        else c :: escapeQuotes f) ++ ('"' :: rest)) true cur row = _
      rw [if_neg hc, List.cons_append]
      by_cases hcc : c = ','
      · subst hcc
        rw [plx_comma_inq, ih rest (cur ++ [',']) row h]
        simp
      · rw [plx_other _ _ _ _ hc hcc, ih rest (cur ++ [c]) row h]
        simp

theorem needsQuote_false_forall {f : List Char} (h : needsQuote f = false) :
    ∀ c ∈ f, c ≠ '"' ∧ c ≠ ',' := by
  intro c hc
  simp only [needsQuote, List.any_eq_false] at h
  have := h c hc
  simp only [Bool.or_eq_true, decide_eq_true_eq] at this
  push_neg at this
  exact ⟨this.2, this.1⟩

/-- Scanning an unquoted serialized field (no quote, no comma in it)
accumulates it literally. -/
theorem scan_plain (f : List Char) :
    ∀ (rest cur : List Char) (row : List (List Char)),
      (∀ c ∈ f, c ≠ '"' ∧ c ≠ ',') →
      parseLineAux (f ++ rest) false cur row = parseLineAux rest false (cur ++ f) row := by
  induction f with
  | nil => intro rest cur row _; simp
  | cons c f ih =>
    intro rest cur row hall
    have hc := hall c (List.mem_cons_self c f)
    rw [List.cons_append, plx_other _ _ _ _ hc.1 hc.2,
      ih rest (cur ++ [c]) row (fun a ha => hall a (List.mem_cons_of_mem c ha))]
    simp

theorem splitOnNl_no_nl {l : List Char} (h : ('\n' : Char) ∉ l) : splitOnNl l = [l] := by
  induction l with
  | nil => rfl
  | cons c rest ih =>
    have hc : c ≠ '\n' := by
      intro he; exact h (he ▸ List.mem_cons_self c rest)
    have hr : ('\n' : Char) ∉ rest := fun hm => h (List.mem_cons_of_mem c hm)
    simp only [splitOnNl, if_neg hc, ih hr]

theorem splitOnNl_append :
    ∀ (l : List Char), ('\n' : Char) ∉ l →
      ∀ (cs hd : List Char) (tl : List (List Char)), splitOnNl cs = hd :: tl →
        splitOnNl (l ++ cs) = (l ++ hd) :: tl := by
  intro l
  induction l with
  | nil => intro _ cs hd tl hcs; simpa using hcs
  | cons c rest ih =>
    intro h cs hd tl hcs
    have hc : c ≠ '\n' := by
      intro he; exact h (he ▸ List.mem_cons_self c rest)
    have hr : ('\n' : Char) ∉ rest := fun hm => h (List.mem_cons_of_mem c hm)
    have h2 := ih hr cs hd tl hcs
    simp only [List.cons_append, splitOnNl, if_neg hc, List.append_eq, h2]

theorem mem_escapeQuotes {c : Char} : ∀ {f : List Char}, c ∈ escapeQuotes f → c ∈ f ∨ c = '"' := by
  intro f
  induction f with
  | nil => intro h; simp [escapeQuotes] at h
  | cons c0 f ih =>
    intro h
    by_cases h0 : c0 = '"'
    · subst h0
      simp only [escapeQuotes, if_pos rfl] at h
      rcases List.mem_cons.mp h with h1 | h2
      · exact Or.inr h1
      · rcases List.mem_cons.mp h2 with h3 | h4
        · exact Or.inr h3
        · rcases ih h4 with h5 | h6
          · exact Or.inl (List.mem_cons_of_mem _ h5)
          · exact Or.inr h6
    · simp only [escapeQuotes, if_neg h0] at h
      rcases List.mem_cons.mp h with h1 | h2
      · exact Or.inl (h1 ▸ List.mem_cons_self c0 f)
      · rcases ih h2 with h3 | h4
        · exact Or.inl (List.mem_cons_of_mem _ h3)
        · exact Or.inr h4

theorem mem_serializeField {c : Char} {f : List Char} (h : c ∈ serializeFieldChars f) :
    c ∈ f ∨ c = '"' := by
  by_cases hq : needsQuote f = true
  · simp only [serializeFieldChars, if_pos hq] at h
    rcases List.mem_cons.mp h with h1 | h2
    · exact Or.inr h1
    · rcases List.mem_append.mp h2 with h3 | h4
      · exact mem_escapeQuotes h3
      · exact Or.inr (by simpa using h4)
  · simp only [serializeFieldChars, if_neg hq] at h
    exact Or.inl h

theorem mem_serializeRow {c : Char} :
    ∀ {fs : List (List Char)}, c ∈ serializeRowChars fs →
      (∃ f ∈ fs, c ∈ f) ∨ c = '"' ∨ c = ',' := by
  intro fs
  induction fs with
  | nil => intro h; simp [serializeRowChars] at h
  | cons f fs ih =>
    intro h
    cases fs with
    | nil =>
      rcases mem_serializeField (f := f) (by simpa [serializeRowChars] using h) with h1 | h2
      · exact Or.inl ⟨f, List.mem_cons_self f [], h1⟩
      · exact Or.inr (Or.inl h2)
    | cons f2 fs2 =>
      have h' : c ∈ serializeFieldChars f ++ ',' :: serializeRowChars (f2 :: fs2) := h
      rcases List.mem_append.mp h' with h1 | h2
      · rcases mem_serializeField h1 with h3 | h4
        · exact Or.inl ⟨f, List.mem_cons_self f _, h3⟩
        · exact Or.inr (Or.inl h4)
      · rcases List.mem_cons.mp h2 with h3 | h4
        · exact Or.inr (Or.inr h3)
        · rcases ih h4 with h5 | h6
          · obtain ⟨g, hg, hcg⟩ := h5
            exact Or.inl ⟨g, List.mem_cons_of_mem f hg, hcg⟩
          · exact Or.inr h6

theorem no_nl_serializeRow {fs : List (List Char)} (h : ∀ f ∈ fs, ('\n' : Char) ∉ f) :
    ('\n' : Char) ∉ serializeRowChars fs := by
  intro hm
  rcases mem_serializeRow hm with ⟨f, hf, hc⟩ | hq | hc
  · exact h f hf hc
  · exact absurd hq (by decide)
  · exact absurd hc (by decide)

theorem splitOnNl_serializeTable :
    ∀ (rows : List (List (List Char))), rows ≠ [] →
      (∀ r ∈ rows, ∀ f ∈ r, ('\n' : Char) ∉ f) →
      splitOnNl (serializeTableChars rows) = rows.map serializeRowChars := by
  intro rows
  induction rows with
  | nil => intro h; exact absurd rfl h
  | cons r rows ih =>
    intro _ hnl
    cases rows with
    | nil =>
      show splitOnNl (serializeRowChars r) = [serializeRowChars r]
      exact splitOnNl_no_nl (no_nl_serializeRow (hnl r (List.mem_cons_self r [])))
    | cons r2 rows2 =>
      have hr : ('\n' : Char) ∉ serializeRowChars r :=
        no_nl_serializeRow (hnl r (List.mem_cons_self r _))
      have ih2 := ih (by simp)
        (fun r' hr' f hf => hnl r' (List.mem_cons_of_mem r hr') f hf)
      have hsplit : splitOnNl ('\n' :: serializeTableChars (r2 :: rows2)) =
          [] :: (r2 :: rows2).map serializeRowChars := by
        simp [splitOnNl, ih2]
      have := splitOnNl_append (serializeRowChars r) hr
        ('\n' :: serializeTableChars (r2 :: rows2)) []
        ((r2 :: rows2).map serializeRowChars) hsplit
      show splitOnNl (serializeRowChars r ++ '\n' :: serializeTableChars (r2 :: rows2)) = _
      rw [this, List.append_nil]
      rfl

/-- Parsing one serialized row recovers the trimmed original fields. -/
theorem parse_serialized_row :
    ∀ (fs : List (List Char)), fs ≠ [] → ∀ (row : List (List Char)),
      parseLineAux (serializeRowChars fs) false [] row = row ++ fs.map trimChars := by
  intro fs
  induction fs with
  | nil => intro h; exact absurd rfl h
  | cons f fs ih =>
    intro _ row
    cases fs with
    | nil =>
      show parseLineAux (serializeFieldChars f) false [] row = row ++ [trimChars f]
      by_cases hq : needsQuote f = true
      · rw [show serializeFieldChars f = '"' :: (escapeQuotes f ++ ['"']) from if_pos hq,
          plx_open, scan_escaped f [] [] row (by simp)]
        simp [plx_nil]
      · have hplain := scan_plain f [] [] row
          (needsQuote_false_forall (by simpa using hq))
        rw [List.append_nil] at hplain
        rw [show serializeFieldChars f = f from
          if_neg (by simp [Bool.not_eq_true] at hq; simp [hq]), hplain]
        simp [plx_nil]
    | cons f2 fs2 =>
      show parseLineAux
        (serializeFieldChars f ++ ',' :: serializeRowChars (f2 :: fs2)) false [] row = _
      by_cases hq : needsQuote f = true
      · rw [show serializeFieldChars f = '"' :: (escapeQuotes f ++ ['"']) from if_pos hq,
          List.cons_append, plx_open, List.append_assoc,
          List.singleton_append,
          scan_escaped f (',' :: serializeRowChars (f2 :: fs2)) [] row (by simp),
          List.nil_append, plx_comma, ih (by simp) (row ++ [trimChars f])]
        simp
      · rw [show serializeFieldChars f = f from
          if_neg (by simp [Bool.not_eq_true] at hq; simp [hq]),
          scan_plain f (',' :: serializeRowChars (f2 :: fs2)) [] row
            (needsQuote_false_forall (by simpa using hq)),
          List.nil_append, plx_comma, ih (by simp) (row ++ [trimChars f])]
        simp

/-- A field whose trim is non empty contributes a non whitespace
character to its serialized form. -/
theorem exists_nonws_serializeField {f : List Char} (h : trimChars f ≠ []) :
    ∃ c ∈ serializeFieldChars f, c.isWhitespace = false := by
  by_cases hq : needsQuote f = true
  · exact ⟨'"', by simp [serializeFieldChars, hq], by decide⟩
  · have h2 : ¬ ∀ c ∈ f, c.isWhitespace = true :=
      fun hall => h (trimChars_eq_nil_iff.mpr hall)
    push_neg at h2
    obtain ⟨c, hcf, hcw⟩ := h2
    refine ⟨c, ?_, ?_⟩
    · rw [show serializeFieldChars f = f from
        if_neg (by simp [Bool.not_eq_true] at hq; simp [hq])]
      exact hcf
    · exact Bool.not_eq_true _ ▸ (by simpa using hcw)

theorem mem_serializeRow_of_mem_field :
    ∀ {fs : List (List Char)} {f : List Char}, f ∈ fs →
      ∀ {c : Char}, c ∈ serializeFieldChars f → c ∈ serializeRowChars fs := by
  intro fs
  induction fs with
  | nil => intro f h; exact absurd h (List.not_mem_nil f)
  | cons f0 fs ih =>
    intro f hf c hc
    cases fs with
    | nil =>
      have : f = f0 := by simpa using hf
      subst this
      simpa [serializeRowChars] using hc
    | cons f2 fs2 =>
      show c ∈ serializeFieldChars f0 ++ ',' :: serializeRowChars (f2 :: fs2)
      rcases List.mem_cons.mp hf with h1 | h2
      · subst h1
        exact List.mem_append_left _ hc
      · exact List.mem_append_right _ (List.mem_cons_of_mem ',' (ih h2 hc))

/-- A row containing a non blank field serializes to a line that does
not trim to nothing. -/
theorem trim_serializeRow_ne_nil {fs : List (List Char)} {f : List Char}
    (hf : f ∈ fs) (h : trimChars f ≠ []) : trimChars (serializeRowChars fs) ≠ [] := by
  intro hnil
  have hall := trimChars_eq_nil_iff.mp hnil
  obtain ⟨c, hcm, hcw⟩ := exists_nonws_serializeField h
  have hcr : c ∈ serializeRowChars fs := mem_serializeRow_of_mem_field hf hcm
  have := hall c hcr
  rw [hcw] at this
  exact absurd this (by decide)

theorem jsTrim_ne_empty_iff {s : String} : jsTrim s ≠ "" ↔ trimChars s.toList ≠ [] := by
  constructor
  · intro h hnil
    apply h
    unfold jsTrim
    rw [hnil]
  · intro h he
    exact h (congrArg String.data he)

theorem keepRow_map_jsTrim {row : List String} {f : String} (hf : f ∈ row)
    (h : jsTrim f ≠ "") : keepRow (row.map jsTrim) = true := by
  simp only [keepRow, List.any_eq_true, List.mem_map, bne_iff_ne]
  exact ⟨jsTrim f, ⟨f, hf, rfl⟩, h⟩

theorem foldl_csvStep_all_kept :
    ∀ (lines : List (List Char)) (acc : List (List String)),
      (∀ l ∈ lines, trimChars l ≠ [] ∧ keepRow (parseLine l) = true) →
      lines.foldl csvStep acc = acc ++ lines.map parseLine := by
  intro lines
  induction lines with
  | nil => intro acc _; simp
  | cons l lines ih =>
    intro acc h
    have h1 := h l (List.mem_cons_self l lines)
    have hstep : csvStep acc l = acc ++ [parseLine l] := by
      simp [csvStep, h1.1, h1.2]
    simp only [List.foldl_cons, hstep,
      ih (acc ++ [parseLine l]) (fun l' hl' => h l' (List.mem_cons_of_mem l hl'))]
    simp

theorem parseLine_serializeRow {row : List String} (h : row ≠ []) :
    parseLine (serializeRowChars (row.map String.toList)) = row.map jsTrim := by
  unfold parseLine
  rw [parse_serialized_row (row.map String.toList) (by simpa using h) []]
  simp only [List.nil_append, List.map_map]
  rfl

/-- Claim C9 counterexample: the round trip fails on a table with one
row whose single field is empty: the serialized text is empty, the
parser skips the blank line and drops the row, so the parse is the
empty table and not the original trimmed fields, although no field
contains a newline. -/
theorem csv_round_trip_fails_on_blank_row :
    parseCSV (serializeTable [[""]]) = [] ∧
    [[""]].map (fun row => row.map jsTrim) = [[""]] ∧
    (∀ f ∈ [""], ('\n' : Char) ∉ f.toList) ∧
    ([] : List (List String)) ≠ [[""]] := by
  exact ⟨rfl, rfl, by decide, by decide⟩

/-- Claim C9 amended: serializing a table with standard quoting and
parsing it back returns the original fields trimmed, for every table
whose fields contain no newline and whose every row has at least one
field that is non empty after trimming (rows that trim to nothing are
dropped by the parser, which forces the extra hypothesis). -/
theorem csv_round_trip (t : List (List String))
    (hnl : ∀ row ∈ t, ∀ f ∈ row, ('\n' : Char) ∉ f.toList)
    (hnb : ∀ row ∈ t, ∃ f ∈ row, jsTrim f ≠ "") :
    parseCSV (serializeTable t) = t.map (fun row => row.map jsTrim) := by
  cases t with
  | nil => rfl
  | cons r rs =>
    unfold parseCSV serializeTable
    have htl : (String.mk (serializeTableChars
        ((r :: rs).map (fun row => row.map String.toList)))).toList =
        serializeTableChars ((r :: rs).map (fun row => row.map String.toList)) := rfl
    rw [htl]
    have hnl2 : ∀ rc ∈ (r :: rs).map (fun row => row.map String.toList),
        ∀ f ∈ rc, ('\n' : Char) ∉ f := by
      intro rc hrc f hf
      obtain ⟨row, hrow, hrceq⟩ := List.mem_map.mp hrc
      subst hrceq
      obtain ⟨s, hs, hfeq⟩ := List.mem_map.mp hf
      subst hfeq
      exact hnl row hrow s hs
    rw [splitOnNl_serializeTable _ (by simp) hnl2]
    have hlines : ∀ l ∈ ((r :: rs).map (fun row => row.map String.toList)).map
        serializeRowChars, trimChars l ≠ [] ∧ keepRow (parseLine l) = true := by
      intro l hl
      obtain ⟨rc, hrc, hleq⟩ := List.mem_map.mp hl
      obtain ⟨row, hrow, hrceq⟩ := List.mem_map.mp hrc
      subst hleq
      subst hrceq
      obtain ⟨f, hfrow, hfnb⟩ := hnb row hrow
      have hrowne : row ≠ [] := by
        intro he; subst he; exact absurd hfrow (List.not_mem_nil f)
      constructor
      · exact trim_serializeRow_ne_nil (List.mem_map_of_mem String.toList hfrow)
          (jsTrim_ne_empty_iff.mp hfnb)
      · rw [parseLine_serializeRow hrowne]
        exact keepRow_map_jsTrim hfrow hfnb
    rw [foldl_csvStep_all_kept _ [] hlines]
    simp only [List.nil_append, List.map_map]
    apply List.map_congr_left
    intro row hrow
    obtain ⟨f, hfrow, _⟩ := hnb row hrow
    have hrowne : row ≠ [] := by
      intro he; subst he; exact absurd hfrow (List.not_mem_nil f)
    exact parseLine_serializeRow hrowne

/-- Claim C9 amended, witness: the concrete table with fields needing
trimming, an embedded comma and an embedded quote round trips to its
trimmed fields. -/
theorem csv_round_trip_witness :
    parseCSV (serializeTable [[" a ", "x,y"], ["b\"c"]]) =
      [[" a ", "x,y"], ["b\"c"]].map (fun row => row.map jsTrim) := by
  exact csv_round_trip [[" a ", "x,y"], ["b\"c"]] (by decide) (by decide)

/- ### Grouping refinement lemmas -/

theorem firstSeen_snoc {α : Type} [DecidableEq α] (l : List α) (a : α) :
    firstSeen (l ++ [a]) =
      if a ∈ firstSeen l then firstSeen l else firstSeen l ++ [a] := by
  unfold firstSeen
  rw [List.foldl_append]
  rfl

theorem mem_firstSeen_aux {α : Type} [DecidableEq α] :
    ∀ (l acc : List α) (x : α),
      x ∈ l.foldl (fun acc a => if a ∈ acc then acc else acc ++ [a]) acc ↔
        x ∈ acc ∨ x ∈ l := by
  intro l
  induction l with
  | nil => intro acc x; simp
  | cons a l ih =>
    intro acc x
    rw [List.foldl_cons, ih]
    by_cases hm : a ∈ acc
    · rw [if_pos hm]
      constructor
      · rintro (h | h)
        · exact Or.inl h
        · exact Or.inr (List.mem_cons_of_mem a h)
      · rintro (h | h)
        · exact Or.inl h
        · rcases List.mem_cons.mp h with h1 | h2
          · exact Or.inl (h1 ▸ hm)
          · exact Or.inr h2
    · rw [if_neg hm]
      constructor
      · rintro (h | h)
        · rcases List.mem_append.mp h with h1 | h2
          · exact Or.inl h1
          · exact Or.inr (List.mem_cons.mpr (Or.inl (List.mem_singleton.mp h2)))
        · exact Or.inr (List.mem_cons_of_mem a h)
      · rintro (h | h)
        · exact Or.inl (List.mem_append_left _ h)
        · rcases List.mem_cons.mp h with h1 | h2
          · exact Or.inl (List.mem_append_right _ (h1 ▸ List.mem_singleton_self a))
          · exact Or.inr h2

theorem mem_firstSeen {α : Type} [DecidableEq α] {l : List α} {x : α} :
    x ∈ firstSeen l ↔ x ∈ l := by
  unfold firstSeen
  rw [mem_firstSeen_aux]
  simp

theorem nodup_firstSeen_aux {α : Type} [DecidableEq α] :
    ∀ (l acc : List α), acc.Nodup →
      (l.foldl (fun acc a => if a ∈ acc then acc else acc ++ [a]) acc).Nodup := by
  intro l
  induction l with
  | nil => intro acc h; exact h
  | cons a l ih =>
    intro acc h
    rw [List.foldl_cons]
    apply ih
    by_cases hm : a ∈ acc
    · rw [if_pos hm]; exact h
    · rw [if_neg hm]
      rw [List.nodup_append]
      refine ⟨h, List.nodup_singleton a, ?_⟩
      intro x hx hxa
      rw [List.mem_singleton] at hxa
      exact hm (hxa ▸ hx)

theorem nodup_firstSeen {α : Type} [DecidableEq α] (l : List α) : (firstSeen l).Nodup :=
  nodup_firstSeen_aux l [] List.nodup_nil

theorem jsMapUpsert_absent {k v : Type} [DecidableEq k] (ks : List k) (g : k → v)
    (key : k) (fresh : v) (f : v → v) (h : key ∉ ks) :
    jsMapUpsert (ks.map (fun t => (t, g t))) key fresh f =
      ks.map (fun t => (t, g t)) ++ [(key, f fresh)] := by
  induction ks with
  | nil => rfl
  | cons k0 ks ih =>
    have h0 : k0 ≠ key := fun he => h (he ▸ List.mem_cons_self k0 ks)
    simp only [List.map_cons, jsMapUpsert, if_neg h0, List.cons_append]
    rw [ih (fun hm => h (List.mem_cons_of_mem k0 hm))]

theorem jsMapUpsert_present {k v : Type} [DecidableEq k] (ks : List k) (g : k → v)
    (key : k) (fresh : v) (f : v → v) (hmem : key ∈ ks) (hnd : ks.Nodup) :
    jsMapUpsert (ks.map (fun t => (t, g t))) key fresh f =
      ks.map (fun t => (t, if t = key then f (g t) else g t)) := by
  induction ks with
  | nil => cases hmem
  | cons k0 ks ih =>
    by_cases h0 : k0 = key
    · subst h0
      simp only [List.map_cons, jsMapUpsert, if_true]
      congr 1
      apply List.map_congr_left
      intro t ht
      have hne : t ≠ k0 := fun he => (List.nodup_cons.mp hnd).1 (he ▸ ht)
      rw [if_neg hne]
    · simp only [List.map_cons, jsMapUpsert, if_neg h0]
      have hmem2 : key ∈ ks := by
        rcases List.mem_cons.mp hmem with h1 | h2
        · exact absurd h1.symm h0
        · exact h2
      rw [ih hmem2 (List.nodup_cons.mp hnd).2]

theorem filter_snoc {α : Type} (p : α → Bool) (l : List α) (a : α) :
    (l ++ [a]).filter p = l.filter p ++ if p a then [a] else [] := by
  rw [List.filter_append]
  congr 1
  by_cases h : p a = true
  · simp [List.filter_cons, h]
  · simp [List.filter_cons, h]

theorem specTeamRecords_snoc (rs : List Record) (r : Record) (t : Option String) :
    specTeamRecords (rs ++ [r]) t =
      specTeamRecords rs t ++ if r.team = t then [r] else [] := by
  unfold specTeamRecords
  rw [filter_snoc]
  congr 1
  by_cases h : r.team = t
  · simp [h]
  · simp [h]

theorem specTeamRecords_nil {rs : List Record} {t : Option String}
    (h : ∀ r ∈ rs, r.team ≠ t) : specTeamRecords rs t = [] := by
  unfold specTeamRecords
  rw [List.filter_eq_nil_iff]
  intro r hr
  simp [h r hr]

theorem key_nonblank {recs : List Record} {a : String} (h : a ∈ specNonBlankApps recs) :
    specAppNonBlank (some a) = true := by
  unfold specNonBlankApps at h
  rw [mem_firstSeen] at h
  obtain ⟨r, hr, hk⟩ := List.mem_map.mp h
  have hnb : specAppNonBlank r.application = true := by
    have := List.mem_filter.mp hr
    exact this.2
  cases happ : r.application with
  | none => rw [happ] at hnb; exact absurd hnb (by simp [specAppNonBlank])
  | some s =>
    rw [happ] at hnb
    have hs : specAppKey r = s := by simp [specAppKey, happ]
    rw [hs] at hk
    exact hk ▸ hnb

theorem specAppChildren_snoc_ne {recs : List Record} {r : Record} {a : String}
    (h : r.application ≠ some a) :
    specAppChildren (recs ++ [r]) a = specAppChildren recs a := by
  unfold specAppChildren
  rw [filter_snoc, if_neg (by simpa using h), List.append_nil]

theorem specAppChildren_snoc_eq {recs : List Record} {r : Record} {a : String}
    (h : r.application = some a) :
    specAppChildren (recs ++ [r]) a = specAppChildren recs a ++ [moduleLeaf r.module] := by
  unfold specAppChildren
  rw [filter_snoc, if_pos (by simpa using h), List.map_append]
  rfl

theorem specNonBlankApps_snoc_blank {recs : List Record} {r : Record}
    (h : specAppNonBlank r.application = false) :
    specNonBlankApps (recs ++ [r]) = specNonBlankApps recs := by
  unfold specNonBlankApps
  rw [filter_snoc, if_neg (by simp [h]), List.append_nil]

theorem specNonBlankApps_snoc_nonblank {recs : List Record} {r : Record}
    (h : specAppNonBlank r.application = true) :
    specNonBlankApps (recs ++ [r]) =
      if specAppKey r ∈ specNonBlankApps recs then specNonBlankApps recs
      else specNonBlankApps recs ++ [specAppKey r] := by
  unfold specNonBlankApps
  rw [filter_snoc, if_pos (by simp [h]), List.map_append]
  exact firstSeen_snoc _ _

theorem specAppsOf_snoc_blank {recs : List Record} {r : Record}
    (h : specAppNonBlank r.application = false) :
    specAppsOf (recs ++ [r]) = specAppsOf recs := by
  unfold specAppsOf
  rw [specNonBlankApps_snoc_blank h]
  apply List.map_congr_left
  intro a ha
  have hne : r.application ≠ some a := by
    intro he
    rw [he] at h
    rw [key_nonblank ha] at h
    cases h
  rw [specAppChildren_snoc_ne hne]

theorem specModulesOf_snoc_blank {recs : List Record} {r : Record}
    (h : specAppNonBlank r.application = false) :
    specModulesOf (recs ++ [r]) = specModulesOf recs ++ [moduleLeaf r.module] := by
  unfold specModulesOf
  rw [filter_snoc, if_pos (by simp [h]), List.map_append]
  rfl

theorem specModulesOf_snoc_nonblank {recs : List Record} {r : Record}
    (h : specAppNonBlank r.application = true) :
    specModulesOf (recs ++ [r]) = specModulesOf recs := by
  unfold specModulesOf
  rw [filter_snoc, if_neg (by simp [h]), List.append_nil]

theorem specAppChildren_nil_of_absent {recs : List Record} {app : String}
    (hnb : specAppNonBlank (some app) = true) (hmem : app ∉ specNonBlankApps recs) :
    specAppChildren recs app = [] := by
  unfold specAppChildren
  have hfil : recs.filter (fun rec => decide (rec.application = some app)) = [] := by
    rw [List.filter_eq_nil_iff]
    intro rec hrec
    simp only [decide_eq_true_eq]
    intro happ
    apply hmem
    unfold specNonBlankApps
    rw [mem_firstSeen]
    refine List.mem_map.mpr ⟨rec, List.mem_filter.mpr ⟨hrec, by rw [happ]; exact hnb⟩, ?_⟩
    simp [specAppKey, happ]
  rw [hfil]
  rfl

theorem specAppsOf_snoc_nonblank {recs : List Record} {r : Record} {app : String}
    (happ : r.application = some app) (h : specAppNonBlank r.application = true) :
    specAppsOf (recs ++ [r]) =
      jsMapUpsert (specAppsOf recs) app [] (fun ch => ch ++ [moduleLeaf r.module]) := by
  have hkey : specAppKey r = app := by simp [specAppKey, happ]
  unfold specAppsOf
  rw [specNonBlankApps_snoc_nonblank h, hkey]
  by_cases hmem : app ∈ specNonBlankApps recs
  · rw [if_pos hmem,
      jsMapUpsert_present (specNonBlankApps recs) (specAppChildren recs) app []
        (fun ch => ch ++ [moduleLeaf r.module]) hmem (nodup_firstSeen _)]
    apply List.map_congr_left
    intro a ha
    by_cases hae : a = app
    · subst hae
      rw [if_pos rfl, specAppChildren_snoc_eq happ]
    · rw [if_neg hae]
      have hne : r.application ≠ some a := by
        intro he
        rw [happ] at he
        exact hae (Option.some.inj he).symm
      rw [specAppChildren_snoc_ne hne]
  · rw [if_neg hmem, List.map_append,
      jsMapUpsert_absent (specNonBlankApps recs) (specAppChildren recs) app []
        (fun ch => ch ++ [moduleLeaf r.module]) hmem]
    congr 1
    · apply List.map_congr_left
      intro a ha
      have hne : r.application ≠ some a := by
        intro he
        rw [happ] at he
        exact hmem ((Option.some.inj he) ▸ ha)
      rw [specAppChildren_snoc_ne hne]
    · rw [show (([app] : List String).map
        (fun a => (a, specAppChildren (recs ++ [r]) a))) =
          [(app, specAppChildren (recs ++ [r]) app)] from rfl]
      rw [specAppChildren_snoc_eq happ,
        specAppChildren_nil_of_absent (happ ▸ h) hmem]

/-- The record update of applyToTeam turns the gathered team data of a
prefix into the gathered team data of the prefix extended with the
record, when the record belongs to the team. -/
theorem applyToTeam_spec (rs : List Record) (r : Record) (t : Option String)
    (ht : r.team = t) :
    applyToTeam r (specTeamData rs t) = specTeamData (rs ++ [r]) t := by
  have hrecs : specTeamRecords (rs ++ [r]) t = specTeamRecords rs t ++ [r] := by
    rw [specTeamRecords_snoc, if_pos ht]
  unfold specTeamData
  rw [hrecs]
  cases happ : r.application with
  | none =>
    have hblank : specAppNonBlank r.application = false := by rw [happ]; rfl
    rw [specAppsOf_snoc_blank hblank, specModulesOf_snoc_blank hblank]
    simp [applyToTeam, happ]
  | some app =>
    by_cases hcond : app ≠ "" ∧ jsTrim app ≠ ""
    · have hnb : specAppNonBlank r.application = true := by
        rw [happ]
        simp [specAppNonBlank, hcond.1, hcond.2]
      rw [specAppsOf_snoc_nonblank happ hnb, specModulesOf_snoc_nonblank hnb]
      simp [applyToTeam, happ, hcond]
    · have hnb : specAppNonBlank r.application = false := by
        rw [happ]
        rw [Bool.eq_false_iff]
        exact fun hand => hcond (by simpa [specAppNonBlank] using hand)
      rw [specAppsOf_snoc_blank hnb, specModulesOf_snoc_blank hnb]
      simp [applyToTeam, happ, hcond]

theorem specTeamData_snoc_ne {rs : List Record} {r : Record} {t : Option String}
    (h : r.team ≠ t) : specTeamData (rs ++ [r]) t = specTeamData rs t := by
  unfold specTeamData
  rw [specTeamRecords_snoc, if_neg h, List.append_nil]

/-- The team map accumulated by the forEach over any record prefix is
exactly the gathered spec description: one entry per team in first seen
order, holding the gathered team data. -/
theorem foldl_applyRecord_spec (rs : List Record) :
    rs.foldl applyRecord [] =
      (firstSeen (rs.map Record.team)).map (fun t => (t, specTeamData rs t)) := by
  induction rs using List.reverseRecOn with
  | nil => rfl
  | append_singleton rs r ih =>
    rw [List.foldl_append, List.foldl_cons, List.foldl_nil, ih]
    simp only [applyRecord]
    simp only [List.map_append, List.map_cons, List.map_nil]
    rw [firstSeen_snoc]
    by_cases hmem : r.team ∈ firstSeen (rs.map Record.team)
    · rw [if_pos hmem,
        jsMapUpsert_present (firstSeen (rs.map Record.team)) (specTeamData rs) r.team
          ⟨r.team, [], []⟩ (applyToTeam r) hmem (nodup_firstSeen _)]
      apply List.map_congr_left
      intro t ht
      by_cases hte : t = r.team
      · subst hte
        rw [if_pos rfl, applyToTeam_spec rs r r.team rfl]
      · rw [if_neg hte,
          specTeamData_snoc_ne (fun he => hte he.symm)]
    · rw [if_neg hmem, List.map_append,
        jsMapUpsert_absent (firstSeen (rs.map Record.team)) (specTeamData rs) r.team
          ⟨r.team, [], []⟩ (applyToTeam r) hmem]
      congr 1
      · apply List.map_congr_left
        intro t ht
        have hne : r.team ≠ t := fun he => hmem (he ▸ ht)
        rw [specTeamData_snoc_ne hne]
      · have hnorec : ∀ rec ∈ rs, rec.team ≠ r.team := by
          intro rec hrec he
          exact hmem (mem_firstSeen.mpr (he ▸ List.mem_map_of_mem Record.team hrec))
        have hfresh : specTeamData rs r.team = ⟨r.team, [], []⟩ := by
          unfold specTeamData
          rw [specTeamRecords_nil hnorec]
          rfl
        rw [show (([r.team] : List (Option String)).map
            (fun t => (t, specTeamData (rs ++ [r]) t))) =
            [(r.team, specTeamData (rs ++ [r]) r.team)] from rfl]
        rw [← applyToTeam_spec rs r r.team rfl, hfresh]

/-- The teams array computed by the fold equals the gathered spec
description for every input table. -/
theorem buildTeams_eq_specTeams (rs : List Record) : buildTeams rs = specTeams rs := by
  unfold buildTeams specTeams
  rw [foldl_applyRecord_spec, List.map_map]
  rfl

/-- Claim C5 amended: for every table the teams stage realizes the
grouping description: teams in first seen order, and inside a team the
application groups in first seen order (module leaves in record order)
followed by the standalone module leaves in record order; this is the
universal equality with the gathered spec description specTeams. For
the example records of the claim the teams array is the claimed tree
rooted at T1, but the single team makes the final stored tree collapse
to T1 - App1 with children mod-b, mod-c. A second example with
interleaved teams and applications exercises the first seen orders and
keeps the FOLIO root. -/
theorem setData_grouping_rule :
    (∀ rs : List Record, buildTeams rs = specTeams rs) ∧
    buildTeams
      [⟨some "mod-a", some "", some "T1"⟩,
       ⟨some "mod-b", some "App1", some "T1"⟩,
       ⟨some "mod-c", some "App1", some "T1"⟩] =
      [HNode.mk (some "T1")
        (some [HNode.mk (some "App1")
                 (some [moduleLeaf (some "mod-b"), moduleLeaf (some "mod-c")]),
               moduleLeaf (some "mod-a")])] ∧
    setData
      [⟨some "mod-a", some "", some "T1"⟩,
       ⟨some "mod-b", some "App1", some "T1"⟩,
       ⟨some "mod-c", some "App1", some "T1"⟩] =
      some (HNode.mk (some "T1 - App1")
        (some [moduleLeaf (some "mod-b"), moduleLeaf (some "mod-c")])) ∧
    buildTeams
      [⟨some "mod-1", some "App-B", some "T2"⟩,
       ⟨some "mod-2", none, some "T1"⟩,
       ⟨some "mod-3", some "App-A", some "T2"⟩,
       ⟨some "mod-4", some "App-B", some "T2"⟩,
       ⟨some "mod-5", some "", some "T2"⟩] =
      [HNode.mk (some "T2")
        (some [HNode.mk (some "App-B")
                 (some [moduleLeaf (some "mod-1"), moduleLeaf (some "mod-4")]),
               HNode.mk (some "App-A") (some [moduleLeaf (some "mod-3")]),
               moduleLeaf (some "mod-5")]),
       HNode.mk (some "T1") (some [moduleLeaf (some "mod-2")])] ∧
    setData
      [⟨some "mod-1", some "App-B", some "T2"⟩,
       ⟨some "mod-2", none, some "T1"⟩,
       ⟨some "mod-3", some "App-A", some "T2"⟩,
       ⟨some "mod-4", some "App-B", some "T2"⟩,
       ⟨some "mod-5", some "", some "T2"⟩] =
      some (HNode.mk (some "FOLIO")
        (some [HNode.mk (some "T2")
                 (some [HNode.mk (some "App-B")
                          (some [moduleLeaf (some "mod-1"), moduleLeaf (some "mod-4")]),
                        HNode.mk (some "App-A") (some [moduleLeaf (some "mod-3")]),
                        moduleLeaf (some "mod-5")]),
               HNode.mk (some "T1") (some [moduleLeaf (some "mod-2")])])) := by
  exact ⟨buildTeams_eq_specTeams, rfl, rfl, rfl, rfl⟩
